import Mathlib

/-!
# Perses: schema hot reload and plugin build

A shallow embedding of

* `internal/api/impl/v1/dashboard/schemas/hotreload.go` (the schemas watcher and the
  periodic reloader),
* `internal/cli/cmd/plugin/build/build.go` (the `percli plugin build` command),
* the validator exercised by `validator_test.go`,

followed by the properties proved about them.
-/

namespace Perses

/-- A Go `error` value: `none` is `nil`, `some msg` is a non-nil error whose `Error()` is `msg`. -/
abbrev GoError := Option String

/-! ## hotreload.go -/

namespace fsnotify

/-- The `Op` bit `Create` of gopkg.in/fsnotify.v1 (`Create Op = 1 << iota`). -/
def Create : Nat := 1
/-- The `Op` bit `Write` of gopkg.in/fsnotify.v1. -/
def Write : Nat := 2
/-- The `Op` bit `Remove` of gopkg.in/fsnotify.v1. -/
def Remove : Nat := 4
/-- The `Op` bit `Rename` of gopkg.in/fsnotify.v1. -/
def Rename : Nat := 8
/-- The `Op` bit `Chmod` of gopkg.in/fsnotify.v1. -/
def Chmod : Nat := 16

/-- An `fsnotify.Event`: the file name and the bit set `Op` (a `uint32`; only `&` is applied
to it, so it is a natural number here). -/
structure Event where
  Name : String
  Op : Nat
  deriving DecidableEq, Repr

end fsnotify

/-- The result of a channel receive `v, ok := <-ch`: a value (`ok = true`) or the report
that the channel is closed (`ok = false`). -/
inductive Recv (α : Type) where
  | value (a : α)
  | closed
  deriving DecidableEq, Repr

/-- The case a `select` of `watcher.Execute` takes in one iteration of its loop. -/
inductive Select where
  | events (r : Recv fsnotify.Event)
  | errors (r : Recv String)
  | ctxDone
  deriving DecidableEq, Repr

/-- The calls a task makes on its collaborators, in the order it makes them. -/
inductive Effect where
  | loadSchemas
  | cancel
  | tracef (op : Nat) (name : String)
  | error (msg : String)
  | infof (msg : String)
  deriving DecidableEq, Repr

/-- The part of an `fsnotify.Watcher` the tasks use: the watched paths and whether it was
closed. -/
structure FsWatcher where
  watches : List String
  closed : Bool
  deriving DecidableEq, Repr

/-- The call `fsWatcher.Add(path)`; `fail` is what the operating system answers. -/
def FsWatcher.Add (fw : FsWatcher) (path : String) (fail : GoError) : FsWatcher × GoError :=
  match fail with
  | some e => (fw, some e)
  | none => (if path ∈ fw.watches then fw else { fw with watches := fw.watches ++ [path] }, none)

/-- The call `fsWatcher.Close()`: every watch is removed and the watcher is closed. -/
def FsWatcher.Close (_fw : FsWatcher) : FsWatcher × GoError :=
  ({ watches := [], closed := true }, none)

/-- The struct `watcher`, over a validator state `σ`; `effects` records the calls made so
far, oldest first. -/
structure watcher (σ : Type) where
  fsWatcher : FsWatcher
  schemasPath : String
  validator : σ
  effects : List Effect

/-- The struct `reloader`, over a validator state `σ`; `effects` records the calls made so
far, oldest first. -/
structure reloader (σ : Type) where
  validator : σ
  effects : List Effect

/-- What a call of `Execute` has come to after the `select` cases it was given. -/
inductive Outcome where
  | blocked
  | returned (err : GoError)
  deriving DecidableEq, Repr

/-- The error both closed-channel branches of `watcher.Execute` return. -/
def watcher.closedMsg : String := "schemas watcher channel has been closed unexpectedly"

/-- The method `watcher.String`. -/
def watcher.String : String := "schemas watcher"

/-- The method `reloader.String`. -/
def reloader.String : String := "schemas reloader"

/-- Records one call in the log of a watcher. -/
def watcher.emit {σ : Type} (w : watcher σ) (e : Effect) : watcher σ :=
  { w with effects := w.effects ++ [e] }

/-- The call `w.validator.LoadSchemas()`. -/
def watcher.callLoadSchemas {σ : Type} (LoadSchemas : σ → σ) (w : watcher σ) : watcher σ :=
  { w with validator := LoadSchemas w.validator, effects := w.effects ++ [Effect.loadSchemas] }

/-- One iteration of the `for`/`select` loop of `watcher.Execute`. -/
def watcher.step {σ : Type} (LoadSchemas : σ → σ) (w : watcher σ) :
    Select → watcher σ × Outcome
  | .events .closed => (w.emit .cancel, .returned (some watcher.closedMsg))
  | .events (.value event) =>
    if event.Op &&& fsnotify.Write = fsnotify.Write ∨
        event.Op &&& fsnotify.Remove = fsnotify.Remove then
      ((w.emit (.tracef event.Op event.Name)).callLoadSchemas LoadSchemas, .blocked)
    else (w, .blocked)
  | .errors .closed => (w.emit .cancel, .returned (some watcher.closedMsg))
  | .errors (.value err) => (w.emit (.error err), .blocked)
  | .ctxDone => (w.emit (.infof ("canceled " ++ watcher.String)), .returned none)

/-- The loop of `watcher.Execute` over the `select` cases it takes; it is blocked in the
`select` when they are used up. -/
def watcher.loop {σ : Type} (LoadSchemas : σ → σ) (w : watcher σ) :
    List Select → watcher σ × Outcome
  | [] => (w, .blocked)
  | o :: os =>
    match watcher.step LoadSchemas w o with
    | (w1, .returned err) => (w1, .returned err)
    | (w1, .blocked) => watcher.loop LoadSchemas w1 os

/-- The method `watcher.Initialize`. -/
def watcher.Initialize {σ : Type} (w : watcher σ) (addFail : GoError) : watcher σ × GoError :=
  let r := w.fsWatcher.Add w.schemasPath addFail
  ({ w with fsWatcher := r.1 }, r.2)

/-- The method `watcher.Execute`: `addFail` is the answer to `fsWatcher.Add`, `trace` the
`select` cases taken. -/
def watcher.Execute {σ : Type} (LoadSchemas : σ → σ) (addFail : GoError) (w : watcher σ)
    (trace : List Select) : watcher σ × Outcome :=
  match w.fsWatcher.Add w.schemasPath addFail with
  | (_, some err) => (w, .returned (some err))
  | (fw, none) => watcher.loop LoadSchemas { w with fsWatcher := fw } trace

/-- The method `watcher.Finalize`. -/
def watcher.Finalize {σ : Type} (w : watcher σ) : watcher σ × GoError :=
  let r := w.fsWatcher.Close
  ({ w with fsWatcher := r.1 }, r.2)

/-- The method `reloader.Execute`; `ctxDone` tells whether `ctx.Done()` is ready when the
`select` is entered. -/
def reloader.Execute {σ : Type} (LoadSchemas : σ → σ) (ctxDone : Bool) (r : reloader σ) :
    reloader σ × GoError :=
  if ctxDone then
    ({ r with effects := r.effects ++ [Effect.infof ("canceled " ++ reloader.String)] }, none)
  else
    ({ r with validator := LoadSchemas r.validator,
              effects := r.effects ++ [Effect.loadSchemas] }, none)

/-- Whether a `select` case makes `watcher.Execute` return. -/
def Select.terminal : Select → Bool
  | .events .closed => true
  | .errors .closed => true
  | .ctxDone => true
  | _ => false

/-- The filesystem events among a list of `select` cases. -/
def Select.eventsOf : List Select → List fsnotify.Event
  | [] => []
  | .events (.value ev) :: os => ev :: Select.eventsOf os
  | _ :: os => Select.eventsOf os

/-- The filesystem events delivered to `watcher.Execute` before it terminates: those that
come before the first case on which it returns. -/
def Select.delivered (trace : List Select) : List fsnotify.Event :=
  Select.eventsOf (trace.takeWhile (fun o => !o.terminal))

/-- The number of `LoadSchemas` calls in a log. -/
def Effect.reloads (es : List Effect) : Nat := es.count Effect.loadSchemas

/-- The number of `cancel` calls in a log. -/
def Effect.cancels (es : List Effect) : Nat := es.count Effect.cancel


/-- A content-change or removal event, as the specification calls it: bit 1 (`Write`, value
2) or bit 2 (`Remove`, value 4) of `Op` is set, whatever the other bits are. -/
def fsnotify.Event.isChange (ev : fsnotify.Event) : Bool :=
  ev.Op.testBit 1 || ev.Op.testBit 2

/-- The number of content-change or removal events delivered before termination. -/
def Select.changes (trace : List Select) : Nat :=
  ((Select.delivered trace).filter fsnotify.Event.isChange).length

/-! ## build.go -/

namespace path

/-- The elements of a path: the runs of characters between slashes. -/
def split : List Char → List (List Char)
  | [] => [[]]
  | c :: cs =>
    if c = '/' then [] :: split cs
    else
      match split cs with
      | [] => [[c]]
      | x :: xs => (c :: x) :: xs

/-- One element of a path in Go's `path.Clean`, `out` holding the elements kept so far,
last one first: an empty element (a repeated slash) and `.` are dropped, `..` removes the
element before it when there is one that is not `..`, is dropped at the start of a rooted
path and is kept otherwise. -/
def cleanElem (rooted : Bool) (out : List (List Char)) (e : List Char) : List (List Char) :=
  if e = [] ∨ e = ['.'] then out
  else if e = ['.', '.'] then
    match out with
    | [] => if rooted then [] else [e]
    | top :: below => if top = ['.', '.'] then e :: top :: below else below
  else e :: out

/-- The elements joined with slashes. -/
def unsplit : List (List Char) → List Char
  | [] => []
  | [e] => e
  | e :: es => e ++ '/' :: unsplit es

/-- Go's `path.Clean` on the characters of a path. -/
def cleanChars (p : List Char) : List Char :=
  let rooted : Bool := p.head? = some '/'
  let out := unsplit ((split p).foldl (cleanElem rooted) []).reverse
  if rooted then '/' :: out
  else if out = [] then ['.'] else out

/-- Go's `path.Clean`. -/
def Clean (p : String) : String := String.mk (cleanChars p.data)

/-- The buffer Go's `path.Join` fills before it cleans it: the elements separated by
slashes, empty leading elements skipped. -/
def joinBuf : List Char → List String → List Char
  | buf, [] => buf
  | buf, e :: es =>
    if buf ≠ [] ∨ e ≠ "" then
      joinBuf ((if buf ≠ [] then buf ++ ['/'] else buf) ++ e.data) es
    else joinBuf buf es

/-- Go's `path.Join`. -/
def Join (elem : List String) : String :=
  if (elem.map String.length).sum = 0 then "" else Clean (String.mk (joinBuf [] elem))

end path

/-- A Go `map[string]string`, as the list of its bindings. -/
abbrev GoMap := List (String × String)

/-- The assignment `m[k] = v`. -/
def GoMap.set : GoMap → String → String → GoMap
  | [], k, v => [(k, v)]
  | (k1, v1) :: rest, k, v =>
    if k1 = k then (k, v) :: rest else (k1, v1) :: GoMap.set rest k v

/-- The lookup `v, ok := m[k]`. -/
def GoMap.get : GoMap → String → Option String
  | [], _ => none
  | (k1, v1) :: rest, k => if k1 = k then some v1 else GoMap.get rest k

/-- What `os.Stat` answers for a path: no error, an error for which `os.IsNotExist` holds,
or another error. -/
inductive StatResult where
  | ok
  | notExist
  | failed (msg : String)
  deriving DecidableEq, Repr

/-- The test `os.IsNotExist(err)` on the error of an `os.Stat`. -/
def StatResult.IsNotExist : StatResult → Bool
  | .notExist => true
  | _ => false

/-- The filesystem as `build.go` reads it: `os.Stat` and the entry names `os.ReadDir`
lists. -/
structure FS where
  Stat : String → StatResult
  ReadDir : String → Except String (List String)

namespace build

/-- The struct `option` of `build.go`. -/
structure option where
  skipNPMBuild : Bool
  archiveFormat : String
  frontendFolder : String
  schemaFolder : String
  distFolder : String
  deriving DecidableEq, Repr

/-- The declarations of the packages `archive` and `plugin` that `build.go` uses, and Go's
`%q` verb. -/
structure Deps where
  IsValidFormat : String → Bool
  PackageJSONFile : String
  ManifestFileName : String
  quote : String → String

/-- The method `option.Validate`. -/
def option.Validate (d : Deps) (o : option) (fs : FS) : GoError :=
  if !d.IsValidFormat o.archiveFormat then
    some ("archive format " ++ d.quote o.archiveFormat ++ " not managed")
  else if (fs.Stat "cue.mod").IsNotExist then
    some "cue modules not found"
  else if (fs.Stat (path.Join [o.frontendFolder, d.PackageJSONFile])).IsNotExist then
    some "package.json not found"
  else if (fs.Stat (path.Join [o.distFolder, d.ManifestFileName])).IsNotExist then
    some (d.ManifestFileName ++ " not found")
  else none

/-- The map `list` that `option.computeArchiveFiles` builds, from disk path to archive
path, or the error of the first directory that cannot be read. -/
def option.archiveList (o : option) (fs : FS) : Except String GoMap :=
  let list : GoMap := []
  let list := if fs.Stat "README.md" = .ok then list.set "README.md" "README.md" else list
  let list := if fs.Stat "LICENSE" = .ok then list.set "LICENSE" "LICENSE" else list
  let list := list.set (path.Join [o.frontendFolder, "package.json"]) "package.json"
  match fs.ReadDir o.distFolder with
  | .error err => .error ("unable to read 'dist' directory: " ++ err)
  | .ok distFiles =>
    let list := distFiles.foldl (fun l f => l.set (path.Join [o.distFolder, f]) f) list
    match fs.ReadDir o.schemaFolder with
    | .error err => .error ("unable to read 'schema' directory: " ++ err)
    | .ok cueFiles =>
      let list := cueFiles.foldl
        (fun l f => l.set (path.Join [o.schemaFolder, f]) (path.Join ["schemas", f])) list
      .ok (list.set "cue.mod" "")

/-- The method `option.computeArchiveFiles`; `FilesFromDisk` is the call
`archives.FilesFromDisk(context.Background(), nil, list)`. -/
def option.computeArchiveFiles {α : Type} (o : option) (fs : FS)
    (FilesFromDisk : GoMap → Except String α) : Except String α :=
  match o.archiveList fs with
  | .error err => .error err
  | .ok list => FilesFromDisk list

/-- The steps `option.Execute` performs on the outside world. -/
inductive Action where
  | npmRunBuild
  | readManifest (distFolder : String)
  | computeArchiveFiles
  | archiveBuild (name : String) (format : String)
  | write (msg : String)
  deriving DecidableEq, Repr

/-- The answers of the outside world to `option.Execute`: the exit of `npm run build`,
`plugin.ReadManifest` (the manifest name), the filesystem, `archives.FilesFromDisk`,
`archive.Build` and `output.HandleString` on the writer. -/
structure Env (α : Type) where
  npmRunBuild : GoError
  ReadManifest : String → Except String String
  fs : FS
  FilesFromDisk : GoMap → Except String α
  Build : String → String → α → GoError
  HandleString : String → GoError

/-- The method `option.Execute`: the steps performed, in order, and the error returned. -/
def option.Execute {α : Type} (o : option) (env : Env α) : List Action × GoError :=
  let npm : List Action × GoError :=
    if !o.skipNPMBuild then ([Action.npmRunBuild], env.npmRunBuild) else ([], none)
  match npm with
  | (done, some err) => (done, some ("unable to build the frontend: " ++ err))
  | (done, none) =>
    match env.ReadManifest o.distFolder with
    | .error err =>
      (done ++ [.readManifest o.distFolder], some ("unable to read manifest: " ++ err))
    | .ok name =>
      match o.computeArchiveFiles env.fs env.FilesFromDisk with
      | .error err => (done ++ [.readManifest o.distFolder, .computeArchiveFiles], some err)
      | .ok files =>
        match env.Build name o.archiveFormat files with
        | some archiveBuildErr =>
          (done ++ [.readManifest o.distFolder, .computeArchiveFiles,
              .archiveBuild name o.archiveFormat],
            some ("archive creation failed: " ++ archiveBuildErr))
        | none =>
          (done ++ [.readManifest o.distFolder, .computeArchiveFiles,
              .archiveBuild name o.archiveFormat,
              .write ("Building " ++ name ++ " successfully")],
            env.HandleString ("Building " ++ name ++ " successfully"))

end build

/-- The name of a directory entry, as `os.ReadDir` reports it: not empty, without a slash,
and neither `.` nor `..`. -/
def path.Plain (f : String) : Prop :=
  f.data ≠ [] ∧ '/' ∉ f.data ∧ f.data ≠ ['.'] ∧ f.data ≠ ['.', '.']

/-- What `path.Join` puts in front of an entry name joined to the folder `d`: nothing, or
the cleaned folder and a slash. -/
def path.dirPart (d : String) : List Char :=
  if d.data = [] then []
  else
    let rooted : Bool := d.data.head? = some '/'
    let out := ((path.split d.data).foldl (path.cleanElem rooted) []).reverse
    (if rooted then ['/'] else []) ++ (if out = [] then [] else path.unsplit out ++ ['/'])

/-- A filesystem whose directory listings hold entry names only, as `os.ReadDir` gives
them. -/
def FS.WellFormed (fs : FS) : Prop :=
  ∀ dir names, fs.ReadDir dir = .ok names → ∀ f ∈ names, path.Plain f

/-- The layout of the archive as the specification words it, for the map `list` built by
`computeArchiveFiles`: every entry of the dist folder at the archive root under its own
name, every entry of the schema folder under `schemas/`, the `package.json` of the frontend
folder as `package.json`, and `cue.mod` at the archive root. -/
def build.ArchiveLayout (o : build.option) (fs : FS) (list : GoMap) : Prop :=
  (∀ distFiles, fs.ReadDir o.distFolder = .ok distFiles →
      ∀ f ∈ distFiles, list.get (path.Join [o.distFolder, f]) = some f)
  ∧ (∀ cueFiles, fs.ReadDir o.schemaFolder = .ok cueFiles →
      ∀ g ∈ cueFiles, list.get (path.Join [o.schemaFolder, g]) = some ("schemas/" ++ g))
  ∧ list.get (path.Join [o.frontendFolder, "package.json"]) = some "package.json"
  ∧ list.get "cue.mod" = some ""

/-- A filesystem in which the folder `dist` holds the single entry `a.js` and nothing else
can be listed. -/
def build.oneFolderFS : FS where
  Stat := fun _ => .notExist
  ReadDir := fun dir => if dir = "dist" then .ok ["a.js"] else .error "no such directory"

/-- The kind of a step of `option.Execute`. -/
inductive build.StepKind where
  | npm
  | manifest
  | compute
  | archive
  | message
  deriving DecidableEq, Repr

/-- The kind of a performed step. -/
def build.Action.kind : build.Action → build.StepKind
  | .npmRunBuild => .npm
  | .readManifest _ => .manifest
  | .computeArchiveFiles => .compute
  | .archiveBuild _ _ => .archive
  | .write _ => .message

/-- The order of the steps the specification gives, the npm build left out when it is
skipped. -/
def build.order (o : build.option) : List build.StepKind :=
  (if o.skipNPMBuild then [] else [.npm]) ++ [.manifest, .compute, .archive, .message]

/-- A filesystem with the default layout of a plugin: `dist` and `schemas` folders. -/
def build.pluginFS : FS where
  Stat := fun p => if p = "cue.mod" then .failed "permission denied" else .ok
  ReadDir := fun dir =>
    if dir = "dist" then .ok ["mf-manifest.json", "static"]
    else if dir = "schemas" then .ok ["panel.cue"]
    else .error "no such directory"

/-- The `build` command with its default flags. -/
def build.defaults : build.option where
  skipNPMBuild := false
  archiveFormat := "tar.gz"
  frontendFolder := ""
  schemaFolder := "schemas"
  distFolder := "dist"

/-- The formats the flag `archive-format` documents, the file names the comments of
`build.go` give, and double quotes for `%q`. -/
def build.documented : build.Deps where
  IsValidFormat := fun f => f = "tar.gz" || f = "tar" || f = "zip"
  PackageJSONFile := "package.json"
  ManifestFileName := "mf-manifest.json"
  quote := fun s => "\"" ++ s ++ "\""

/-- An outside world in which `npm run build` fails. -/
def build.npmFails : build.Env GoMap where
  npmRunBuild := some "exit status 1"
  ReadManifest := fun _ => .ok "Tempo"
  fs := build.pluginFS
  FilesFromDisk := fun list => .ok list
  Build := fun _ _ _ => none
  HandleString := fun _ => none

/-! ## The validator

`validator.go` is not among the sources; the watcher and the reloader call its
`LoadSchemas`, and `validator_test.go` calls `NewValidator`, `LoadSchemas` and `Validate`.
The definitions of this section that stand for it follow the specification (its sections
3, 4.1 to 4.3 and 7); the expected results of `TestValidateDashboard` are taken from
`validator_test.go`. -/

namespace schemas

/-- Modelled from the spec: the violation the Schema Engine Adapter reports (missing from
the sources), a field path and a reason. -/
structure Violation where
  path : String
  reason : String
  deriving DecidableEq, Repr

/-- Modelled from the spec: the Schema Engine Adapter of section 4.1 (the external
validation engine, missing from the sources). `Compile` fails on schema content that is
not valid; `Check` answers `none` for a match and the violation otherwise. -/
structure Engine (Src Schema Doc : Type) where
  Compile : Src → Except String Schema
  Check : Schema → Doc → Option Violation

/-- Modelled from the spec: one generation of the SchemaRegistry of section 3 (missing from
the sources), the compiled schemas under their `(category, kind)`. -/
abbrev Registry (Schema : Type) := List ((String × String) × Schema)

/-- Modelled from the spec: the lookup of `(category, kind)` in a generation (missing from
the sources), with an explicit not-found result. -/
def Registry.lookup {Schema : Type} : Registry Schema → String → String → Option Schema
  | [], _, _ => none
  | ((c, k), s) :: rest, category, kind =>
    if c = category ∧ k = kind then some s else Registry.lookup rest category kind

/-- Modelled from the spec: a schema file of the Loader of section 4.2 (missing from the
sources): its base name and its content, `none` when it cannot be read. -/
structure SchemaFile (Src : Type) where
  baseName : String
  content : Option Src

/-- Modelled from the spec: the schema root on disk (missing from the sources): the files
of each category, `none` for a directory that cannot be listed. -/
abbrev SchemaTree (Src : Type) := String → Option (List (SchemaFile Src))

/-- Modelled from the spec: the configuration the validator consumes (section 6, missing
from the sources): the named category sub-folders and the convention that derives a kind
from the base name of a schema file. -/
structure Config where
  categories : List String
  kindOf : String → String

/-- Modelled from the spec: the implicit default category of the root path (section 4.2,
missing from the sources). -/
def defaultCategory : String := "root"

/-- Modelled from the spec: the categories a load visits and a lookup without a category
hint searches, the default category first and then the named ones (sections 4.2 and 4.3,
missing from the sources). -/
def Config.searched (cfg : Config) : List String := defaultCategory :: cfg.categories

/-- Modelled from the spec: steps 2 and 3 of the Loader of section 4.2 on the files of one
category (missing from the sources): every file is read and compiled, and the first file
that cannot be read or compiled aborts the load. -/
def loadFiles {Src Schema Doc : Type} (E : Engine Src Schema Doc) (cfg : Config)
    (category : String) : List (SchemaFile Src) → Except String (Registry Schema)
  | [] => .ok []
  | file :: rest =>
    match file.content with
    | none => .error ("unable to read " ++ category ++ "/" ++ file.baseName)
    | some src =>
      match E.Compile src with
      | .error e => .error ("unable to compile " ++ category ++ "/" ++ file.baseName ++ ": " ++ e)
      | .ok schema =>
        match loadFiles E cfg category rest with
        | .error e => .error e
        | .ok reg => .ok (((category, cfg.kindOf file.baseName), schema) :: reg)

/-- Modelled from the spec: the Loader of section 4.2 over a list of categories (missing
from the sources): all or nothing. -/
def loadCategories {Src Schema Doc : Type} (E : Engine Src Schema Doc) (cfg : Config)
    (tree : SchemaTree Src) : List String → Except String (Registry Schema)
  | [] => .ok []
  | category :: rest =>
    match tree category with
    | none => .error ("unable to list " ++ category)
    | some files =>
      match loadFiles E cfg category files with
      | .error e => .error e
      | .ok reg =>
        match loadCategories E cfg tree rest with
        | .error e => .error e
        | .ok more => .ok (reg ++ more)

/-- Modelled from the spec: `Load` of section 4.2 (missing from the sources). -/
def Load {Src Schema Doc : Type} (E : Engine Src Schema Doc) (cfg : Config)
    (tree : SchemaTree Src) : Except String (Registry Schema) :=
  loadCategories E cfg tree cfg.searched

/-- Modelled from the spec: the state of the Validator (section 3, missing from the
sources), the reference to the current generation. -/
structure Validator (Schema : Type) where
  current : Registry Schema

/-- Modelled from the spec: `Reload` of section 4.3, the `LoadSchemas` of the sources
(missing from them): a successful load replaces the generation, a failed one leaves it. -/
def LoadSchemas {Src Schema Doc : Type} (E : Engine Src Schema Doc) (cfg : Config)
    (tree : SchemaTree Src) (v : Validator Schema) : Validator Schema :=
  match Load E cfg tree with
  | .ok reg => { current := reg }
  | .error _ => v

/-- Modelled from the spec: a sub-document of section 3 (missing from the sources): its
declared kind and category when it has them, and the candidate handed to the engine. -/
structure SubDocument (Doc : Type) where
  kind : Option String
  category : Option String
  body : Doc

/-- Modelled from the spec: the validation failures of section 7 (missing from the
sources). -/
inductive ValidationError where
  | MissingKindError (slot : String)
  | UnknownKindError (slot kind : String)
  | SchemaViolation (slot kind : String) (v : Violation)
  deriving DecidableEq, Repr

namespace TestValidateDashboard

/-- The `result` that `TestValidateDashboard` expects of `Validate` for its case `dashboard
containing valid panels` (validator_test.go line 122): the empty string, which `errString`
is for a `nil` error. -/
def validResult : String := ""

end TestValidateDashboard

/-- Modelled from the spec: step 2 of the dispatch of section 4.3 (missing from the
sources): the hinted category only, or the searched categories in order. -/
def resolve {Schema Doc : Type} (cfg : Config) (reg : Registry Schema)
    (sub : SubDocument Doc) (kind : String) : Option Schema :=
  match sub.category with
  | some category => reg.lookup category kind
  | none => cfg.searched.findSome? (fun category => reg.lookup category kind)

/-- Modelled from the spec: the dispatch of section 4.3 for one sub-document (missing from
the sources). -/
def validateSlot {Src Schema Doc : Type} (E : Engine Src Schema Doc) (cfg : Config)
    (reg : Registry Schema) (slot : String) (sub : SubDocument Doc) : Option ValidationError :=
  match sub.kind with
  | none => some (.MissingKindError slot)
  | some kind =>
    match resolve cfg reg sub kind with
    | none => some (.UnknownKindError slot kind)
    | some schema =>
      match E.Check schema sub.body with
      | none => none
      | some v => some (.SchemaViolation slot kind v)

/-- Modelled from the spec: the iteration of `Validate` over the slots of a document, in
the order it meets them, which stops at the first failure (missing from the sources). -/
def validateSlots {Src Schema Doc : Type} (E : Engine Src Schema Doc) (cfg : Config)
    (reg : Registry Schema) : List (String × SubDocument Doc) → Option ValidationError
  | [] => none
  | (slot, sub) :: rest =>
    match validateSlot E cfg reg slot sub with
    | some err => some err
    | none => validateSlots E cfg reg rest

/-- Modelled from the spec: `Validate` of section 4.3 (missing from the sources): the
current generation is read once and every slot is validated against it. -/
def Validate {Src Schema Doc : Type} (E : Engine Src Schema Doc) (cfg : Config)
    (v : Validator Schema) (document : List (String × SubDocument Doc)) :
    Option ValidationError :=
  let reg := v.current
  validateSlots E cfg reg document

end schemas

namespace schemas

end schemas

/-! ## Properties of the watcher and the reloader -/

theorem land_two_pow_eq (n i : Nat) : n &&& 2 ^ i = 2 ^ i ↔ n.testBit i = true := by
  rw [Nat.and_two_pow]
  cases h : n.testBit i
  · have : (0 : Nat) ≠ 2 ^ i := (Nat.two_pow_pos i).ne
    simpa [Bool.toNat] using this
  · simp [Bool.toNat]

theorem land_Write_eq (n : Nat) : n &&& fsnotify.Write = fsnotify.Write ↔ n.testBit 1 = true :=
  land_two_pow_eq n 1

theorem land_Remove_eq (n : Nat) :
    n &&& fsnotify.Remove = fsnotify.Remove ↔ n.testBit 2 = true :=
  land_two_pow_eq n 2

theorem reloads_append (a b : List Effect) :
    Effect.reloads (a ++ b) = Effect.reloads a + Effect.reloads b := by
  simp [Effect.reloads]

theorem cancels_append (a b : List Effect) :
    Effect.cancels (a ++ b) = Effect.cancels a + Effect.cancels b := by
  simp [Effect.cancels]

/-- What one filesystem event does: a reload exactly when the Write or the Remove bit is
set. -/
theorem step_event {σ : Type} (LoadSchemas : σ → σ) (w : watcher σ) (ev : fsnotify.Event) :
    watcher.step LoadSchemas w (.events (.value ev)) =
      if ev.Op.testBit 1 = true ∨ ev.Op.testBit 2 = true then
        ((w.emit (.tracef ev.Op ev.Name)).callLoadSchemas LoadSchemas, .blocked)
      else (w, .blocked) := by
  simp only [watcher.step, land_Write_eq, land_Remove_eq]

/-- The loop counts: reloads and validator after the cases of a trace. -/
theorem loop_reloads {σ : Type} (LoadSchemas : σ → σ) (trace : List Select) (w : watcher σ) :
    Effect.reloads (watcher.loop LoadSchemas w trace).1.effects =
        Effect.reloads w.effects +
          ((Select.delivered trace).filter
            (fun ev => ev.Op.testBit 1 || ev.Op.testBit 2)).length
    ∧ (watcher.loop LoadSchemas w trace).1.validator =
        LoadSchemas^[((Select.delivered trace).filter
            (fun ev => ev.Op.testBit 1 || ev.Op.testBit 2)).length] w.validator := by
  induction trace generalizing w with
  | nil => simp [watcher.loop, Select.delivered, Select.eventsOf]
  | cons o os ih =>
    rcases o with (ev | _) | (e | _) | _
    · rw [watcher.loop, step_event]
      by_cases h : ev.Op.testBit 1 = true ∨ ev.Op.testBit 2 = true
      · have hb : (ev.Op.testBit 1 || ev.Op.testBit 2) = true := by simpa using h
        have := ih ((w.emit (.tracef ev.Op ev.Name)).callLoadSchemas LoadSchemas)
        simp only [if_pos h]
        simp only [Select.delivered, List.takeWhile, Select.terminal, Bool.not_false,
          Select.eventsOf, List.filter, hb, List.length_cons] at this ⊢
        refine ⟨?_, ?_⟩
        · rw [this.1]
          simp [watcher.callLoadSchemas, watcher.emit, Effect.reloads]
          omega
        · rw [this.2]
          simp [watcher.callLoadSchemas, watcher.emit, Function.iterate_succ_apply]
      · have hb : (ev.Op.testBit 1 || ev.Op.testBit 2) = false := by
          simpa using h
        have := ih w
        simp only [if_neg h]
        simpa only [Select.delivered, List.takeWhile, Select.terminal, Bool.not_false,
          Select.eventsOf, List.filter, hb] using this
    · simp [watcher.loop, watcher.step, Select.delivered, Select.terminal, Select.eventsOf,
        watcher.emit, Effect.reloads]
    · have := ih (w.emit (.error e))
      simpa [watcher.loop, watcher.step, Select.delivered, Select.terminal, Select.eventsOf,
        watcher.emit, Effect.reloads] using this
    · simp [watcher.loop, watcher.step, Select.delivered, Select.terminal, Select.eventsOf,
        watcher.emit, Effect.reloads]
    · simp [watcher.loop, watcher.step, Select.delivered, Select.terminal, Select.eventsOf,
        watcher.emit, Effect.reloads]

/-- The outcome of the loop is decided by the first terminal case of the trace, which also
is the only one to call `cancel`. -/
theorem loop_outcome {σ : Type} (LoadSchemas : σ → σ) (trace : List Select) (w : watcher σ) :
    (trace.find? Select.terminal = none →
        (watcher.loop LoadSchemas w trace).2 = .blocked ∧
        Effect.cancels (watcher.loop LoadSchemas w trace).1.effects = Effect.cancels w.effects)
    ∧ (trace.find? Select.terminal = some (.events .closed) ∨
        trace.find? Select.terminal = some (.errors .closed) →
        (watcher.loop LoadSchemas w trace).2 = .returned (some watcher.closedMsg) ∧
        Effect.cancels (watcher.loop LoadSchemas w trace).1.effects =
          Effect.cancels w.effects + 1)
    ∧ (trace.find? Select.terminal = some .ctxDone →
        (watcher.loop LoadSchemas w trace).2 = .returned none ∧
        Effect.cancels (watcher.loop LoadSchemas w trace).1.effects =
          Effect.cancels w.effects) := by
  induction trace generalizing w with
  | nil => simp [watcher.loop]
  | cons o os ih =>
    rcases o with (ev | _) | (e | _) | _
    · have := ih (watcher.step LoadSchemas w (.events (.value ev))).1
      have hc : Effect.cancels (watcher.step LoadSchemas w (.events (.value ev))).1.effects
          = Effect.cancels w.effects := by
        rw [step_event]
        split <;> simp [watcher.callLoadSchemas, watcher.emit, Effect.cancels]
      have hs : (watcher.step LoadSchemas w (.events (.value ev))).2 = .blocked := by
        rw [step_event]; split <;> rfl
      have hl : watcher.loop LoadSchemas w (.events (.value ev) :: os) =
          watcher.loop LoadSchemas (watcher.step LoadSchemas w (.events (.value ev))).1 os := by
        rw [watcher.loop]
        generalize watcher.step LoadSchemas w (.events (.value ev)) = r at hs
        obtain ⟨r1, r2⟩ := r
        simp only at hs
        subst hs
        rfl
      rw [hl, ← hc]
      simpa [List.find?, Select.terminal] using this
    · simp [watcher.loop, watcher.step, Select.terminal, watcher.emit, Effect.cancels]
    · have := ih (w.emit (.error e))
      simpa [watcher.loop, watcher.step, Select.terminal, watcher.emit, Effect.cancels]
        using this
    · simp [watcher.loop, watcher.step, Select.terminal, watcher.emit, Effect.cancels]
    · simp [watcher.loop, watcher.step, Select.terminal, watcher.emit, Effect.cancels]

/-- The log of a step is the log before it followed by what the step adds, and the step
does not read the log. -/
theorem step_frame {σ : Type} (LoadSchemas : σ → σ) (w : watcher σ) (es : List Effect)
    (o : Select) :
    watcher.step LoadSchemas { w with effects := es ++ w.effects } o =
      ({ (watcher.step LoadSchemas w o).1 with
          effects := es ++ (watcher.step LoadSchemas w o).1.effects },
        (watcher.step LoadSchemas w o).2) := by
  rcases o with (ev | _) | (e | _) | _
  · simp only [watcher.step]
    split <;> simp [watcher.callLoadSchemas, watcher.emit]
  all_goals simp [watcher.step, watcher.emit]

/-- The loop does not read the log either. -/
theorem loop_frame {σ : Type} (LoadSchemas : σ → σ) (trace : List Select) (w : watcher σ)
    (es : List Effect) :
    watcher.loop LoadSchemas { w with effects := es ++ w.effects } trace =
      ({ (watcher.loop LoadSchemas w trace).1 with
          effects := es ++ (watcher.loop LoadSchemas w trace).1.effects },
        (watcher.loop LoadSchemas w trace).2) := by
  induction trace generalizing w with
  | nil => simp [watcher.loop]
  | cons o os ih =>
    rw [watcher.loop, watcher.loop, step_frame]
    generalize watcher.step LoadSchemas w o = r
    obtain ⟨w1, out⟩ := r
    cases out with
    | blocked => exact ih w1
    | returned err => rfl

theorem Execute_none {σ : Type} (LoadSchemas : σ → σ) (w : watcher σ) (trace : List Select) :
    watcher.Execute LoadSchemas none w trace =
      watcher.loop LoadSchemas
        { w with fsWatcher := (w.fsWatcher.Add w.schemasPath none).1 } trace := by
  simp [watcher.Execute, FsWatcher.Add]

/-- Inserting an error value anywhere in the trace changes nothing but the log line. -/
theorem loop_insert_error {σ : Type} (LoadSchemas : σ → σ) (err : String)
    (pre post : List Select) (w : watcher σ) :
    (watcher.loop LoadSchemas w (pre ++ .errors (.value err) :: post)).2 =
        (watcher.loop LoadSchemas w (pre ++ post)).2
    ∧ (watcher.loop LoadSchemas w (pre ++ .errors (.value err) :: post)).1.validator =
        (watcher.loop LoadSchemas w (pre ++ post)).1.validator
    ∧ (watcher.loop LoadSchemas w (pre ++ .errors (.value err) :: post)).1.fsWatcher =
        (watcher.loop LoadSchemas w (pre ++ post)).1.fsWatcher
    ∧ Effect.reloads (watcher.loop LoadSchemas w (pre ++ .errors (.value err) :: post)).1.effects =
        Effect.reloads (watcher.loop LoadSchemas w (pre ++ post)).1.effects
    ∧ Effect.cancels (watcher.loop LoadSchemas w (pre ++ .errors (.value err) :: post)).1.effects =
        Effect.cancels (watcher.loop LoadSchemas w (pre ++ post)).1.effects := by
  induction pre generalizing w with
  | nil =>
    have h1 := loop_frame LoadSchemas post { w with effects := [] } (w.effects ++ [.error err])
    have h0 := loop_frame LoadSchemas post { w with effects := [] } w.effects
    simp only [List.append_nil] at h1 h0
    have e1 : watcher.loop LoadSchemas w ([] ++ .errors (.value err) :: post) =
        watcher.loop LoadSchemas { w with effects := w.effects ++ [.error err] } post := by
      simp [watcher.loop, watcher.step, watcher.emit]
    have e0 : watcher.loop LoadSchemas w ([] ++ post) =
        watcher.loop LoadSchemas { w with effects := w.effects } post := rfl
    rw [e1, e0, h1, h0]
    simp [reloads_append, cancels_append, Effect.reloads, Effect.cancels]
  | cons o os ih =>
    simp only [List.cons_append, watcher.loop]
    generalize watcher.step LoadSchemas w o = r
    obtain ⟨w1, out⟩ := r
    cases out with
    | blocked => exact ih w1
    | returned e => simp

/-- C1: for every trace of `select` cases, `watcher.Execute` calls `LoadSchemas` exactly once
for each delivered event whose `Op` has the Write bit (bit 1) or the Remove bit (bit 2) set,
alone or with other bits, and not at all for an event with neither bit (Create, Rename and
Chmod only); the number of reloads is the number of content-change or removal events
delivered before termination, and the validator has been reloaded that many times. -/
theorem watcher_Execute_reloads_once_per_change {σ : Type} (LoadSchemas : σ → σ)
    (w : watcher σ) (trace : List Select) :
    (∀ ev : fsnotify.Event,
      Effect.reloads (watcher.step LoadSchemas w (.events (.value ev))).1.effects =
        Effect.reloads w.effects +
          (if ev.Op.testBit 1 = true ∨ ev.Op.testBit 2 = true then 1 else 0))
    ∧ (∀ name : String,
        watcher.step LoadSchemas w (.events (.value ⟨name, fsnotify.Create⟩)) = (w, .blocked)
        ∧ watcher.step LoadSchemas w (.events (.value ⟨name, fsnotify.Rename⟩)) = (w, .blocked)
        ∧ watcher.step LoadSchemas w (.events (.value ⟨name, fsnotify.Chmod⟩)) = (w, .blocked)
        ∧ watcher.step LoadSchemas w (.events (.value
            ⟨name, fsnotify.Create ||| fsnotify.Rename ||| fsnotify.Chmod⟩)) = (w, .blocked))
    ∧ (∀ err : String,
        watcher.Execute LoadSchemas (some err) w trace = (w, .returned (some err)))
    ∧ Effect.reloads (watcher.Execute LoadSchemas none w trace).1.effects =
        Effect.reloads w.effects + Select.changes trace
    ∧ (watcher.Execute LoadSchemas none w trace).1.validator =
        LoadSchemas^[Select.changes trace] w.validator := by
  refine ⟨?_, ?_, ?_, ?_, ?_⟩
  · intro ev
    rw [step_event]
    split <;> simp [watcher.callLoadSchemas, watcher.emit, Effect.reloads]
  · intro name
    have key : ∀ op : Nat, Nat.testBit op 1 = false → Nat.testBit op 2 = false →
        watcher.step LoadSchemas w (.events (.value ⟨name, op⟩)) = (w, .blocked) := by
      intro op h1 h2
      rw [step_event]
      simp [h1, h2]
    exact ⟨key _ (by decide) (by decide), key _ (by decide) (by decide),
      key _ (by decide) (by decide), key _ (by decide) (by decide)⟩
  · intro err
    simp [watcher.Execute, FsWatcher.Add]
  · rw [Execute_none]
    exact (loop_reloads LoadSchemas trace _).1
  · rw [Execute_none]
    exact (loop_reloads LoadSchemas trace _).2

/-- C2: when `watcher.Execute` observes the Events channel or the Errors channel closed, in
any watcher state, it calls `cancel` once, triggers no reload in that step and returns the
non-nil error saying that the watch channel was closed; a run whose first terminal case is
a closed channel returns that error, and it differs from the `nil` returned on
cancellation. -/
theorem watcher_Execute_closed_channel {σ : Type} (LoadSchemas : σ → σ) (w : watcher σ)
    (trace : List Select) (o : Select) (ho : o = .events .closed ∨ o = .errors .closed) :
    ((watcher.step LoadSchemas w o).2 = .returned (some watcher.closedMsg)
      ∧ Effect.cancels (watcher.step LoadSchemas w o).1.effects = Effect.cancels w.effects + 1
      ∧ Effect.reloads (watcher.step LoadSchemas w o).1.effects = Effect.reloads w.effects
      ∧ (watcher.step LoadSchemas w o).1.validator = w.validator)
    ∧ (trace.find? Select.terminal = some o →
        (watcher.Execute LoadSchemas none w trace).2 = .returned (some watcher.closedMsg)
        ∧ Effect.cancels (watcher.Execute LoadSchemas none w trace).1.effects =
            Effect.cancels w.effects + 1
        ∧ Effect.reloads (watcher.Execute LoadSchemas none w trace).1.effects =
            Effect.reloads w.effects + Select.changes trace)
    ∧ (watcher.step LoadSchemas w .ctxDone).2 = .returned none
    ∧ (watcher.step LoadSchemas w o).2 ≠ (watcher.step LoadSchemas w .ctxDone).2 := by
  refine ⟨?_, ?_, ?_, ?_⟩
  · rcases ho with h | h <;> subst h <;>
      simp [watcher.step, watcher.emit, Effect.cancels, Effect.reloads]
  · intro hfirst
    rw [Execute_none]
    have hout := (loop_outcome LoadSchemas trace
      { w with fsWatcher := (w.fsWatcher.Add w.schemasPath none).1 }).2.1
      (by rcases ho with h | h <;> subst h <;> simp [hfirst])
    exact ⟨hout.1, hout.2, (loop_reloads LoadSchemas trace _).1⟩
  · rfl
  · rcases ho with h | h <;> subst h <;> simp [watcher.step]

theorem watcher_Execute_closed_channel_witness :
    [Select.events (.value ⟨"charts/a.cue", 2⟩), .errors (.value "overflow"), .events .closed,
        .ctxDone].find? Select.terminal = some (.events .closed)
    ∧ (watcher.Execute Nat.succ none ⟨⟨[], false⟩, "schemas", 0, []⟩
        [Select.events (.value ⟨"charts/a.cue", 2⟩), .errors (.value "overflow"),
          .events .closed, .ctxDone]).2 = .returned (some watcher.closedMsg) :=
  ⟨by decide,
    ((watcher_Execute_closed_channel Nat.succ ⟨⟨[], false⟩, "schemas", 0, []⟩
      [Select.events (.value ⟨"charts/a.cue", 2⟩), .errors (.value "overflow"),
        .events .closed, .ctxDone] (.events .closed) (Or.inl rfl)).2.1 (by decide)).1⟩

/-- C3: when `watcher.Execute` observes the context done it returns `nil` without calling
`LoadSchemas` and without calling `cancel`; a run whose first terminal case is the
cancellation returns `nil` with no `cancel` call and only the reloads of the events
delivered before, and `Finalize` then closes the filesystem watcher, which releases every
watch, and returns `nil`. -/
theorem watcher_Execute_cancellation {σ : Type} (LoadSchemas : σ → σ) (w : watcher σ)
    (trace : List Select) :
    ((watcher.step LoadSchemas w .ctxDone).2 = .returned none
      ∧ Effect.reloads (watcher.step LoadSchemas w .ctxDone).1.effects = Effect.reloads w.effects
      ∧ Effect.cancels (watcher.step LoadSchemas w .ctxDone).1.effects = Effect.cancels w.effects
      ∧ (watcher.step LoadSchemas w .ctxDone).1.validator = w.validator)
    ∧ (trace.find? Select.terminal = some .ctxDone →
        (watcher.Execute LoadSchemas none w trace).2 = .returned none
        ∧ Effect.cancels (watcher.Execute LoadSchemas none w trace).1.effects =
            Effect.cancels w.effects
        ∧ Effect.reloads (watcher.Execute LoadSchemas none w trace).1.effects =
            Effect.reloads w.effects + Select.changes trace)
    ∧ (watcher.Finalize (watcher.Execute LoadSchemas none w trace).1).2 = none
    ∧ (watcher.Finalize (watcher.Execute LoadSchemas none w trace).1).1.fsWatcher =
        { watches := [], closed := true } := by
  refine ⟨?_, ?_, ?_, ?_⟩
  · simp [watcher.step, watcher.emit, Effect.cancels, Effect.reloads]
  · intro hfirst
    rw [Execute_none]
    have hout := (loop_outcome LoadSchemas trace
      { w with fsWatcher := (w.fsWatcher.Add w.schemasPath none).1 }).2.2 hfirst
    exact ⟨hout.1, hout.2, (loop_reloads LoadSchemas trace _).1⟩
  · rfl
  · rfl

theorem watcher_Execute_cancellation_witness :
    [Select.events (.value ⟨"charts/a.cue", 4⟩), .errors (.value "overflow"), .ctxDone,
        .events (.value ⟨"charts/b.cue", 2⟩)].find? Select.terminal = some .ctxDone
    ∧ (watcher.Execute Nat.succ none ⟨⟨[], false⟩, "schemas", 0, []⟩
        [Select.events (.value ⟨"charts/a.cue", 4⟩), .errors (.value "overflow"), .ctxDone,
          .events (.value ⟨"charts/b.cue", 2⟩)]).2 = .returned none
    ∧ Effect.cancels (watcher.Execute Nat.succ none ⟨⟨[], false⟩, "schemas", 0, []⟩
        [Select.events (.value ⟨"charts/a.cue", 4⟩), .errors (.value "overflow"), .ctxDone,
          .events (.value ⟨"charts/b.cue", 2⟩)]).1.effects = 0 :=
  ⟨by decide,
    ((watcher_Execute_cancellation Nat.succ ⟨⟨[], false⟩, "schemas", 0, []⟩
      [Select.events (.value ⟨"charts/a.cue", 4⟩), .errors (.value "overflow"), .ctxDone,
        .events (.value ⟨"charts/b.cue", 2⟩)]).2.1 (by decide)).1,
    ((watcher_Execute_cancellation Nat.succ ⟨⟨[], false⟩, "schemas", 0, []⟩
      [Select.events (.value ⟨"charts/a.cue", 4⟩), .errors (.value "overflow"), .ctxDone,
        .events (.value ⟨"charts/b.cue", 2⟩)]).2.1 (by decide)).2.1⟩

/-- C4: an error value received on the open Errors channel leaves `watcher.Execute`
watching: the step does not return, calls neither `cancel` nor `LoadSchemas` and only logs
the error; a run with the error value at any place of its trace has the outcome, the
validator, the reloads and the cancels of the run without it. -/
theorem watcher_Execute_error_keeps_watching {σ : Type} (LoadSchemas : σ → σ)
    (w : watcher σ) (err : String) (pre post : List Select) :
    watcher.step LoadSchemas w (.errors (.value err)) = (w.emit (.error err), .blocked)
    ∧ Effect.reloads (w.emit (.error err)).effects = Effect.reloads w.effects
    ∧ Effect.cancels (w.emit (.error err)).effects = Effect.cancels w.effects
    ∧ (w.emit (.error err)).validator = w.validator
    ∧ (watcher.Execute LoadSchemas none w (pre ++ .errors (.value err) :: post)).2 =
        (watcher.Execute LoadSchemas none w (pre ++ post)).2
    ∧ (watcher.Execute LoadSchemas none w (pre ++ .errors (.value err) :: post)).1.validator =
        (watcher.Execute LoadSchemas none w (pre ++ post)).1.validator
    ∧ Effect.reloads
          (watcher.Execute LoadSchemas none w (pre ++ .errors (.value err) :: post)).1.effects =
        Effect.reloads (watcher.Execute LoadSchemas none w (pre ++ post)).1.effects
    ∧ Effect.cancels
          (watcher.Execute LoadSchemas none w (pre ++ .errors (.value err) :: post)).1.effects =
        Effect.cancels (watcher.Execute LoadSchemas none w (pre ++ post)).1.effects := by
  have h := loop_insert_error LoadSchemas err pre post
    { w with fsWatcher := (w.fsWatcher.Add w.schemasPath none).1 }
  rw [Execute_none, Execute_none]
  refine ⟨rfl, ?_, ?_, rfl, h.1, h.2.1, h.2.2.2.1, h.2.2.2.2⟩
  · simp [watcher.emit, Effect.reloads]
  · simp [watcher.emit, Effect.cancels]

/-- C5: one tick of `reloader.Execute` returns `nil` and never calls `cancel`; when the
context is already canceled it does not call `LoadSchemas` and leaves the validator as it
is, otherwise it calls `LoadSchemas` exactly once. -/
theorem reloader_Execute_tick {σ : Type} (LoadSchemas : σ → σ) (r : reloader σ) :
    ((reloader.Execute LoadSchemas true r).2 = none
      ∧ Effect.reloads (reloader.Execute LoadSchemas true r).1.effects = Effect.reloads r.effects
      ∧ (reloader.Execute LoadSchemas true r).1.validator = r.validator
      ∧ Effect.cancels (reloader.Execute LoadSchemas true r).1.effects =
          Effect.cancels r.effects)
    ∧ ((reloader.Execute LoadSchemas false r).2 = none
      ∧ Effect.reloads (reloader.Execute LoadSchemas false r).1.effects =
          Effect.reloads r.effects + 1
      ∧ (reloader.Execute LoadSchemas false r).1.validator = LoadSchemas r.validator
      ∧ Effect.cancels (reloader.Execute LoadSchemas false r).1.effects =
          Effect.cancels r.effects) := by
  simp [reloader.Execute, Effect.reloads, Effect.cancels]

/-! ## Properties of `path.Join` and of Go maps -/

theorem split_ne_nil (p : List Char) : path.split p ≠ [] := by
  cases p with
  | nil => simp [path.split]
  | cons c cs =>
    simp only [path.split]
    split
    · simp
    · split <;> simp

theorem split_of_no_slash (f : List Char) (h : '/' ∉ f) : path.split f = [f] := by
  induction f with
  | nil => rfl
  | cons c cs ih =>
    have hc : c ≠ '/' := fun e => h (by simp [e])
    have hcs : '/' ∉ cs := fun e => h (by simp [e])
    simp [path.split, hc, ih hcs]

theorem split_append_slash (a b : List Char) :
    path.split (a ++ '/' :: b) = path.split a ++ path.split b := by
  induction a with
  | nil => simp [path.split]
  | cons c cs ih =>
    by_cases hc : c = '/'
    · simp [path.split, hc, ih]
    · cases hs : path.split cs with
      | nil => exact absurd hs (split_ne_nil cs)
      | cons x xs =>
        rw [hs] at ih
        simp [path.split, hc, ih, hs]

theorem cleanElem_plain (rooted : Bool) (out : List (List Char)) (f : String)
    (hf : path.Plain f) : path.cleanElem rooted out f.data = f.data :: out := by
  obtain ⟨h1, _, h3, h4⟩ := hf
  simp [path.cleanElem, h1, h3, h4]

theorem unsplit_append_single (xs : List (List Char)) (f : List Char) :
    path.unsplit (xs ++ [f]) = if xs = [] then f else path.unsplit xs ++ '/' :: f := by
  induction xs with
  | nil => simp [path.unsplit]
  | cons x xs ih =>
    cases xs with
    | nil => simp [path.unsplit]
    | cons y ys =>
      simp only [List.cons_append, path.unsplit] at ih ⊢
      simp [ih]

/-- Joining a folder and an entry name puts the cleaned folder in front of the name. -/
theorem Join_plain (d f : String) (hf : path.Plain f) :
    path.Join [d, f] = String.mk (path.dirPart d ++ f.data) := by
  have hf1 := hf.1
  have hf2 := hf.2.1
  have hlen : ¬ ((([d, f] : List String).map String.length).sum = 0) := by
    have : f.length ≠ 0 := by
      intro e
      apply hf1
      cases f with
      | mk l => exact List.length_eq_zero.mp e
    simp only [List.map, List.sum_cons, List.sum_nil]; omega
  rw [path.Join, if_neg hlen]
  by_cases hd : d.data = []
  · have hd2 : d = "" := by
      cases d; simp_all
    subst hd2
    have hfne : ¬ (f = "") := by
      intro e; subst e; exact hf1 rfl
    have hhead : ¬ (f.data.head? = some '/') := by
      intro e
      apply hf2
      cases hfd : f.data with
      | nil => simp [hfd] at e
      | cons c cs => simp [hfd] at e; simp [e]
    simp [path.joinBuf, hfne, path.Clean, path.cleanChars, hhead, split_of_no_slash _ hf2,
      cleanElem_plain _ _ _ hf, path.unsplit, hf1, path.dirPart]
  · have hd2 : d ≠ "" := by
      intro e; subst e; exact hd rfl
    have hbuf : path.joinBuf [] [d, f] = d.data ++ '/' :: f.data := by
      simp [path.joinBuf, hd2, hd]
    have hhead : (d.data ++ '/' :: f.data).head? = d.data.head? := by
      cases hdd : d.data with
      | nil => exact absurd hdd hd
      | cons c cs => simp
    simp only [hbuf, path.Clean, path.cleanChars, hhead, split_append_slash,
      split_of_no_slash _ hf2, List.foldl_append, List.foldl_cons, List.foldl_nil,
      cleanElem_plain _ _ _ hf, List.reverse_cons, unsplit_append_single, path.dirPart, hd,
      if_false]
    congr 1
    by_cases hr : d.data.head? = some '/'
    · by_cases ho : (List.foldl (path.cleanElem true) [] (path.split d.data)).reverse = []
      · simp [hr, ho]
      · simp [hr, ho]
    · by_cases ho : (List.foldl (path.cleanElem false) [] (path.split d.data)).reverse = []
      · simp [hr, ho, hf1]
      · simp [hr, ho]

theorem dirPart_shape (d : String) :
    path.dirPart d = [] ∨ ∃ a, path.dirPart d = a ++ ['/'] := by
  unfold path.dirPart
  by_cases hd : d.data = []
  · simp [hd]
  · simp only [hd, if_false]
    generalize (decide (d.data.head? = some '/')) = rooted
    generalize (List.foldl (path.cleanElem rooted) [] (path.split d.data)).reverse = out
    by_cases ho : out = []
    · cases rooted
      · left; simp [ho]
      · right; exact ⟨[], by simp [ho]⟩
    · right
      exact ⟨(if rooted = true then ['/'] else []) ++ path.unsplit out, by simp [ho]⟩

/-- The entry name is the last element of the joined path. -/
theorem Join_plain_last (d f : String) (hf : path.Plain f) :
    (path.split (path.Join [d, f]).data).getLast? = some f.data := by
  rw [Join_plain d f hf]
  rcases dirPart_shape d with h | ⟨a, h⟩
  · simp [h, split_of_no_slash _ hf.2.1]
  · simp [h, split_append_slash, split_of_no_slash _ hf.2.1]

theorem Join_plain_inj (d d1 f f1 : String) (hf : path.Plain f) (hf1 : path.Plain f1)
    (h : path.Join [d, f] = path.Join [d1, f1]) : f = f1 := by
  have e := Join_plain_last d f hf
  rw [h, Join_plain_last d1 f1 hf1] at e
  have : f1.data = f.data := by simpa using e
  cases f; cases f1; simp_all

theorem GoMap.get_set_self (m : GoMap) (k v : String) : (m.set k v).get k = some v := by
  induction m with
  | nil => simp [GoMap.set, GoMap.get]
  | cons kv rest ih =>
    obtain ⟨k1, v1⟩ := kv
    by_cases h : k1 = k
    · simp [GoMap.set, GoMap.get, h]
    · simp [GoMap.set, GoMap.get, h, ih]

theorem GoMap.get_set_ne (m : GoMap) (k v k2 : String) (hne : k2 ≠ k) :
    (m.set k v).get k2 = m.get k2 := by
  induction m with
  | nil => simp [GoMap.set, GoMap.get, Ne.symm hne]
  | cons kv rest ih =>
    obtain ⟨k1, v1⟩ := kv
    by_cases h : k1 = k
    · subst h
      simp [GoMap.set, GoMap.get, Ne.symm hne]
    · by_cases h2 : k1 = k2
      · subst h2
        simp [GoMap.set, GoMap.get, hne]
      · simp [GoMap.set, GoMap.get, h, h2, ih]

/-- A key that the loop does not bind keeps its value. -/
theorem GoMap.foldl_set_other (key val : String → String) (names : List String) (m : GoMap)
    (k : String) (hk : ∀ f ∈ names, key f ≠ k) :
    (names.foldl (fun l f => l.set (key f) (val f)) m).get k = m.get k := by
  induction names generalizing m with
  | nil => rfl
  | cons f fs ih =>
    simp only [List.foldl_cons]
    rw [ih _ (fun f1 h1 => hk f1 (List.mem_cons_of_mem _ h1))]
    exact GoMap.get_set_ne m _ _ _ (Ne.symm (hk f (List.mem_cons_self _ _)))

/-- A key that the loop binds has the value the loop gives it, when every entry with that
key gives the same value. -/
theorem GoMap.foldl_set_mem (key val : String → String) (names : List String) (m : GoMap)
    (f : String) (hf : f ∈ names) (hsame : ∀ f1 ∈ names, key f1 = key f → val f1 = val f) :
    (names.foldl (fun l f => l.set (key f) (val f)) m).get (key f) = some (val f) := by
  induction names generalizing m f with
  | nil => cases hf
  | cons f0 fs ih =>
    simp only [List.foldl_cons]
    by_cases hin : f ∈ fs
    · exact ih _ f hin (fun f1 h1 => hsame f1 (List.mem_cons_of_mem _ h1))
    · have hf0 : f = f0 := by
        rcases List.mem_cons.mp hf with h | h
        · exact h
        · exact absurd h hin
      subst hf0
      by_cases hex : ∃ f1 ∈ fs, key f1 = key f
      · obtain ⟨f1, h1, hk1⟩ := hex
        have := ih (m.set (key f) (val f)) f1 h1
          (fun f2 h2 hk2 => by
            rw [hsame f2 (List.mem_cons_of_mem _ h2) (hk2.trans hk1),
              hsame f1 (List.mem_cons_of_mem _ h1) hk1])
        rw [hk1, hsame f1 (List.mem_cons_of_mem _ h1) hk1] at this
        exact this
      · rw [GoMap.foldl_set_other key val fs _ (key f)
          (fun f1 h1 e => hex ⟨f1, h1, e⟩)]
        exact GoMap.get_set_self m _ _

/-! ## Properties of the build command -/

theorem plain_package_json : path.Plain "package.json" := by
  unfold path.Plain; decide

theorem schemas_join (g : String) (hg : path.Plain g) :
    path.Join ["schemas", g] = "schemas/" ++ g := by
  rw [Join_plain "schemas" g hg]
  have : path.dirPart "schemas" = "schemas/".data := by decide
  rw [this]
  rfl

theorem archiveList_ok (o : build.option) (fs : FS) (list : GoMap)
    (h : o.archiveList fs = .ok list) :
    ∃ distFiles cueFiles, fs.ReadDir o.distFolder = .ok distFiles
      ∧ fs.ReadDir o.schemaFolder = .ok cueFiles
      ∧ list = GoMap.set (cueFiles.foldl
          (fun l f => l.set (path.Join [o.schemaFolder, f]) (path.Join ["schemas", f]))
          (distFiles.foldl (fun l f => l.set (path.Join [o.distFolder, f]) f)
            (GoMap.set
              (if fs.Stat "LICENSE" = .ok then
                GoMap.set (if fs.Stat "README.md" = .ok then
                  GoMap.set [] "README.md" "README.md" else []) "LICENSE" "LICENSE"
               else (if fs.Stat "README.md" = .ok then
                  GoMap.set [] "README.md" "README.md" else []))
              (path.Join [o.frontendFolder, "package.json"]) "package.json"))) "cue.mod" "" := by
  unfold build.option.archiveList at h
  cases hd : fs.ReadDir o.distFolder with
  | error e => simp [hd] at h
  | ok distFiles =>
    cases hs : fs.ReadDir o.schemaFolder with
    | error e => simp [hd, hs] at h
    | ok cueFiles =>
      refine ⟨distFiles, cueFiles, rfl, rfl, ?_⟩
      simp only [hd, hs] at h
      exact (Except.ok.inj h).symm

/-- C8 (as stated, refuted): with the dist folder and the schema folder both set to `dist`,
holding the entry `a.js`, `computeArchiveFiles` succeeds and its map sends the disk path
`dist/a.js` to `schemas/a.js` only, so the entry of the dist folder is not at the archive
root. -/
theorem computeArchiveFiles_layout_counterexample :
    ∃ list, build.option.archiveList ⟨true, "tar.gz", "", "dist", "dist"⟩ build.oneFolderFS
        = .ok list
      ∧ build.option.computeArchiveFiles ⟨true, "tar.gz", "", "dist", "dist"⟩
          build.oneFolderFS (fun l => Except.ok l) = .ok list
      ∧ list.get (path.Join ["dist", "a.js"]) = some "schemas/a.js"
      ∧ ¬ build.ArchiveLayout ⟨true, "tar.gz", "", "dist", "dist"⟩ build.oneFolderFS list := by
  refine ⟨[("package.json", "package.json"), ("dist/a.js", "schemas/a.js"), ("cue.mod", "")],
    rfl, rfl, by decide, ?_⟩
  intro h
  have := h.1 ["a.js"] rfl "a.js" (by decide)
  revert this
  decide

/-- C8 (amended): when `computeArchiveFiles` succeeds on a filesystem whose listings hold
entry names, the map it builds sends `cue.mod` to the archive root, every entry `g` of the
schema folder to `schemas/g` unless its disk path is `cue.mod`, every entry `f` of the dist
folder to `f` unless its disk path is `cue.mod` or the disk path of a schema entry, and the
`package.json` of the frontend folder to `package.json` unless its disk path is that of a
schema entry: a disk path bound again by a later step keeps the later archive path. -/
theorem computeArchiveFiles_layout {α : Type} (o : build.option) (fs : FS)
    (FilesFromDisk : GoMap → Except String α) (files : α) (hwf : fs.WellFormed)
    (hok : o.computeArchiveFiles fs FilesFromDisk = .ok files) :
    ∃ list distFiles cueFiles,
      o.archiveList fs = .ok list ∧ FilesFromDisk list = .ok files
      ∧ fs.ReadDir o.distFolder = .ok distFiles ∧ fs.ReadDir o.schemaFolder = .ok cueFiles
      ∧ list.get "cue.mod" = some ""
      ∧ (∀ g ∈ cueFiles, path.Join [o.schemaFolder, g] ≠ "cue.mod" →
          list.get (path.Join [o.schemaFolder, g]) = some ("schemas/" ++ g))
      ∧ (∀ f ∈ distFiles, path.Join [o.distFolder, f] ≠ "cue.mod" →
          (∀ g ∈ cueFiles, path.Join [o.schemaFolder, g] ≠ path.Join [o.distFolder, f]) →
          list.get (path.Join [o.distFolder, f]) = some f)
      ∧ ((∀ g ∈ cueFiles,
            path.Join [o.schemaFolder, g] ≠ path.Join [o.frontendFolder, "package.json"]) →
          list.get (path.Join [o.frontendFolder, "package.json"]) = some "package.json") := by
  unfold build.option.computeArchiveFiles at hok
  cases hl : o.archiveList fs with
  | error e => simp [hl] at hok
  | ok list =>
    simp only [hl] at hok
    obtain ⟨distFiles, cueFiles, hd, hs, hlist⟩ := archiveList_ok o fs list hl
    have pd : ∀ f ∈ distFiles, path.Plain f := hwf _ _ hd
    have ps : ∀ g ∈ cueFiles, path.Plain g := hwf _ _ hs
    refine ⟨list, distFiles, cueFiles, rfl, hok, hd, hs, ?_, ?_, ?_, ?_⟩
    · rw [hlist]; exact GoMap.get_set_self _ _ _
    · intro g hg hne
      rw [hlist, GoMap.get_set_ne _ _ _ _ hne, ← schemas_join g (ps g hg)]
      exact GoMap.foldl_set_mem (fun f => path.Join [o.schemaFolder, f])
        (fun f => path.Join ["schemas", f]) cueFiles _ g hg
        (fun g1 h1 e => by rw [Join_plain_inj _ _ g1 g (ps g1 h1) (ps g hg) e])
    · intro f hf hne hsch
      rw [hlist, GoMap.get_set_ne _ _ _ _ hne,
        GoMap.foldl_set_other (fun f => path.Join [o.schemaFolder, f])
          (fun f => path.Join ["schemas", f]) cueFiles _ _ hsch]
      exact GoMap.foldl_set_mem (fun f => path.Join [o.distFolder, f]) (fun f => f)
        distFiles _ f hf
        (fun f1 h1 e => Join_plain_inj _ _ f1 f (pd f1 h1) (pd f hf) e)
    · intro hsch
      have hne : path.Join [o.frontendFolder, "package.json"] ≠ "cue.mod" := by
        intro e
        have := Join_plain_last o.frontendFolder "package.json" plain_package_json
        rw [e] at this
        revert this
        decide
      rw [hlist, GoMap.get_set_ne _ _ _ _ hne,
        GoMap.foldl_set_other (fun f => path.Join [o.schemaFolder, f])
          (fun f => path.Join ["schemas", f]) cueFiles _ _ hsch]
      by_cases hex : ∃ f ∈ distFiles,
          path.Join [o.distFolder, f] = path.Join [o.frontendFolder, "package.json"]
      · obtain ⟨f, hf, e⟩ := hex
        have hfe : f = "package.json" :=
          Join_plain_inj _ _ f "package.json" (pd f hf) plain_package_json e
        subst hfe
        rw [← e]
        exact GoMap.foldl_set_mem (fun f => path.Join [o.distFolder, f]) (fun f => f)
          distFiles _ "package.json" hf
          (fun f1 h1 e1 => Join_plain_inj _ _ f1 "package.json" (pd f1 h1)
            plain_package_json e1)
      · rw [GoMap.foldl_set_other (fun f => path.Join [o.distFolder, f]) (fun f => f)
          distFiles _ _ (fun f hf e => hex ⟨f, hf, e⟩)]
        exact GoMap.get_set_self _ _ _

theorem pluginFS_wellFormed : build.pluginFS.WellFormed := by
  intro dir names h f hf
  unfold build.pluginFS at h
  simp only at h
  split at h
  · cases h
    simp only [List.mem_cons, List.mem_singleton, List.not_mem_nil, or_false] at hf
    rcases hf with e | e <;> subst e <;> (unfold path.Plain; decide)
  · split at h
    · cases h
      simp only [List.mem_singleton] at hf
      subst hf
      unfold path.Plain; decide
    · cases h

theorem computeArchiveFiles_layout_witness :
    build.pluginFS.WellFormed
    ∧ build.defaults.computeArchiveFiles build.pluginFS (fun l => Except.ok l) =
        .ok [("README.md", "README.md"), ("LICENSE", "LICENSE"),
          ("package.json", "package.json"), ("dist/mf-manifest.json", "mf-manifest.json"),
          ("dist/static", "static"), ("schemas/panel.cue", "schemas/panel.cue"),
          ("cue.mod", "")]
    ∧ ∃ list, build.defaults.archiveList build.pluginFS = .ok list
        ∧ list.get "cue.mod" = some "" := by
  refine ⟨pluginFS_wellFormed, rfl, ?_⟩
  obtain ⟨list, _, _, h1, _, _, _, h2, _⟩ :=
    computeArchiveFiles_layout build.defaults build.pluginFS (fun l => Except.ok l)
      [("README.md", "README.md"), ("LICENSE", "LICENSE"),
        ("package.json", "package.json"), ("dist/mf-manifest.json", "mf-manifest.json"),
        ("dist/static", "static"), ("schemas/panel.cue", "schemas/panel.cue"),
        ("cue.mod", "")]
      pluginFS_wellFormed rfl
  exact ⟨list, h1, h2⟩

/-- C9: `option.Execute` performs its steps in the order npm build, read manifest, compute
archive files, build archive, write message: the steps performed are an initial part of
that order, with the npm build in it exactly when `skipNPMBuild` is false. A failing step
ends the run with its error (prefixed `unable to build the frontend: `, `unable to read
manifest: ` or `archive creation failed: ` for the wrapped ones, as it is for
`computeArchiveFiles`) and no later step is performed; the message
`Building <name> successfully` is written only when every step before it, the archive
build included, succeeded, and its write error is what `Execute` returns. -/
theorem option_Execute_order {α : Type} (o : build.option) (env : build.Env α) :
    ((o.Execute env).1.map build.Action.kind <+: build.order o)
    ∧ (build.Action.npmRunBuild ∈ (o.Execute env).1 ↔ o.skipNPMBuild = false)
    ∧ (∀ e, o.skipNPMBuild = false → env.npmRunBuild = some e →
        o.Execute env = ([.npmRunBuild], some ("unable to build the frontend: " ++ e)))
    ∧ (o.skipNPMBuild = true ∨ env.npmRunBuild = none →
      (∀ e, env.ReadManifest o.distFolder = .error e →
        o.Execute env =
          ((if o.skipNPMBuild then [] else [.npmRunBuild]) ++ [.readManifest o.distFolder],
            some ("unable to read manifest: " ++ e)))
      ∧ (∀ name, env.ReadManifest o.distFolder = .ok name →
        (∀ e, o.computeArchiveFiles env.fs env.FilesFromDisk = .error e →
          o.Execute env =
            ((if o.skipNPMBuild then [] else [.npmRunBuild]) ++
              [.readManifest o.distFolder, .computeArchiveFiles], some e))
        ∧ (∀ files, o.computeArchiveFiles env.fs env.FilesFromDisk = .ok files →
          (∀ e, env.Build name o.archiveFormat files = some e →
            o.Execute env =
              ((if o.skipNPMBuild then [] else [.npmRunBuild]) ++
                [.readManifest o.distFolder, .computeArchiveFiles,
                  .archiveBuild name o.archiveFormat],
                some ("archive creation failed: " ++ e)))
          ∧ (env.Build name o.archiveFormat files = none →
            o.Execute env =
              ((if o.skipNPMBuild then [] else [.npmRunBuild]) ++
                [.readManifest o.distFolder, .computeArchiveFiles,
                  .archiveBuild name o.archiveFormat,
                  .write ("Building " ++ name ++ " successfully")],
                env.HandleString ("Building " ++ name ++ " successfully"))))))
    ∧ (∀ msg, build.Action.write msg ∈ (o.Execute env).1 →
        ∃ name, msg = "Building " ++ name ++ " successfully"
          ∧ build.Action.archiveBuild name o.archiveFormat ∈ (o.Execute env).1
          ∧ env.ReadManifest o.distFolder = .ok name
          ∧ (o.skipNPMBuild = true ∨ env.npmRunBuild = none)) := by
  obtain ⟨skip, fmt, front, schema, dist⟩ := o
  obtain ⟨npm, rm, fs, ffd, bld, hs⟩ := env
  simp only [build.option.Execute, build.order]
  cases skip <;> cases npm <;> simp [build.Action.kind, List.IsPrefix] <;>
    cases hrm : rm dist <;> simp [build.Action.kind] <;>
    cases hc : build.option.computeArchiveFiles _ fs ffd <;> simp [build.Action.kind] <;>
    rename_i name files <;>
    cases hb : bld name fmt files <;> simp [build.Action.kind]

theorem option_Execute_order_witness :
    build.defaults.skipNPMBuild = false ∧ build.npmFails.npmRunBuild = some "exit status 1"
    ∧ build.defaults.Execute build.npmFails =
        ([.npmRunBuild], some "unable to build the frontend: exit status 1") :=
  ⟨rfl, rfl,
    (option_Execute_order build.defaults build.npmFails).2.2.1 "exit status 1" rfl rfl⟩

/-- C10: `option.Validate` returns `nil` exactly when the archive format is valid and none
of `cue.mod`, the `package.json` of the frontend folder and the manifest of the dist folder
is reported as not existing; otherwise it returns the error of the first failing check in
the order format, `cue.mod`, `package.json`, manifest; a stat that fails with another error
does not make the validation fail. -/
theorem option_Validate_checks (d : build.Deps) (o : build.option) (fs : FS) :
    (o.Validate d fs = none ↔
      d.IsValidFormat o.archiveFormat = true ∧ fs.Stat "cue.mod" ≠ .notExist
      ∧ fs.Stat (path.Join [o.frontendFolder, d.PackageJSONFile]) ≠ .notExist
      ∧ fs.Stat (path.Join [o.distFolder, d.ManifestFileName]) ≠ .notExist)
    ∧ (d.IsValidFormat o.archiveFormat = false →
        o.Validate d fs = some ("archive format " ++ d.quote o.archiveFormat ++ " not managed"))
    ∧ (d.IsValidFormat o.archiveFormat = true →
      (fs.Stat "cue.mod" = .notExist → o.Validate d fs = some "cue modules not found")
      ∧ (fs.Stat "cue.mod" ≠ .notExist →
        (fs.Stat (path.Join [o.frontendFolder, d.PackageJSONFile]) = .notExist →
          o.Validate d fs = some "package.json not found")
        ∧ (fs.Stat (path.Join [o.frontendFolder, d.PackageJSONFile]) ≠ .notExist →
          fs.Stat (path.Join [o.distFolder, d.ManifestFileName]) = .notExist →
          o.Validate d fs = some (d.ManifestFileName ++ " not found"))))
    ∧ (d.IsValidFormat o.archiveFormat = true →
        (∀ p, fs.Stat p = .ok ∨ ∃ msg, fs.Stat p = .failed msg) → o.Validate d fs = none) := by
  have hne : ∀ s : StatResult, s.IsNotExist = true ↔ s = .notExist := by
    intro s; cases s <;> simp [StatResult.IsNotExist]
  unfold build.option.Validate
  cases hv : d.IsValidFormat o.archiveFormat
  · simp
  · simp only [Bool.not_true, Bool.false_eq_true, if_false, hne]
    refine ⟨?_, ?_, ?_, ?_⟩
    · by_cases h1 : fs.Stat "cue.mod" = .notExist
      · simp [h1]
      · by_cases h2 : fs.Stat (path.Join [o.frontendFolder, d.PackageJSONFile]) = .notExist
        · simp [h1, h2]
        · by_cases h3 : fs.Stat (path.Join [o.distFolder, d.ManifestFileName]) = .notExist
          · simp [h1, h2, h3]
          · simp [h1, h2, h3]
    · intro h; cases h
    · intro _
      refine ⟨fun h1 => by simp [h1], fun h1 => ⟨fun h2 => by simp [h1, h2],
        fun h2 h3 => by simp [h1, h2, h3]⟩⟩
    · intro _ hall
      have hno : ∀ p, fs.Stat p ≠ .notExist := by
        intro p e
        rcases hall p with h | ⟨m, h⟩ <;> rw [h] at e <;> cases e
      simp [hno]

theorem option_Validate_checks_witness :
    build.documented.IsValidFormat build.defaults.archiveFormat = true
    ∧ build.pluginFS.Stat "cue.mod" = .failed "permission denied"
    ∧ build.defaults.Validate build.documented build.pluginFS = none := by
  refine ⟨by decide, rfl,
    (option_Validate_checks build.documented build.defaults build.pluginFS).2.2.2
      (by decide) ?_⟩
  intro p
  unfold build.pluginFS
  by_cases h : p = "cue.mod"
  · right; exact ⟨"permission denied", by simp [h]⟩
  · left; simp [h]

/-! ## Properties of the validator -/

namespace schemas

end schemas

end Perses
